import Mathlib

/-!
Verification of the Golf Solitaire engine (`solitaire.py`).

The engine state consists of a tableau (a list of columns, each a list of
cards), a stock pile and a waste pile.  Cards have a suit and a rank; the
rank may be the "no rank" sentinel (`None` in Python), modelled here as
`Option Int`.  List ends mirror the Python lists: the "top" / exposed card
of a pile or column is the *last* element, `pop` removes the last element
and `append` adds at the end.

Fallible operations (those that can raise `IndexError` in Python) return
`Option`; `none` models the raised exception.
-/

/-- A playing card: a suit and a rank (`none` is the no-rank sentinel used
for jokers/placeholders).  Equality is structural, matching the Python
value equality on (suit, rank). -/
structure Card where
  suit : Nat
  rank : Option Int
deriving DecidableEq

/-- The mutable state of `Solitaire`: `tableau` (columns of cards),
`stock` and `waste`. -/
structure GameState where
  tableau : List (List Card)
  stock : List Card
  waste : List Card
deriving DecidableEq

/-- `Modelled from the spec:` the external `cards.Deck` collaborator
(`cards.py` is not in the repository).  A deck is an ordered sequence of
cards; `deal_card` removes and returns one card from the dealing end and
fails on an empty deck.  We deal from the front of the list; the deck
argument to `setup` stands for the already-shuffled deck. -/
def dealCard (deck : List Card) : Option (Card × List Card) :=
  match deck with
  | [] => none
  | c :: rest => some (c, rest)

/-- Deal `n` cards into one tableau column (the inner loop of
`Solitaire.__init__`); the first card dealt is the first element of the
column, so the last card dealt is the column's exposed (last) card. -/
def dealColumn : Nat → List Card → Option (List Card × List Card)
  | 0, deck => some ([], deck)
  | n + 1, deck => do
      let (c, deck1) ← dealCard deck
      let (col, deck2) ← dealColumn n deck1
      pure (c :: col, deck2)

/-- Deal `cols` columns of `cic` cards each (the outer loop of
`Solitaire.__init__`). -/
def dealTableau : Nat → Nat → List Card → Option (List (List Card) × List Card)
  | 0, _, deck => some ([], deck)
  | n + 1, cic, deck => do
      let (col, deck1) ← dealColumn cic deck
      let (tab, deck2) ← dealTableau n cic deck1
      pure (col :: tab, deck2)

/-- `Solitaire.__init__`: deal `cols` columns of `cic` cards into the
tableau, one card into the waste, and the whole remaining deck into the
stock (the `while not is_empty` loop), consuming the deck completely. -/
def setup (deck : List Card) (cols cic : Nat) : Option GameState := do
  let (tab, deck1) ← dealTableau cols cic deck
  let (w, deck2) ← dealCard deck1
  pure { tableau := tab, stock := deck2, waste := [w] }

/-- The inner `for` loop of `Solitaire.can_move`: is `c` the last card of
some non-empty tableau column?  (`len(i) > 0 and card == i[-1]`.) -/
def exposedIn (tableau : List (List Card)) (c : Card) : Bool :=
  tableau.any (fun col => decide (col.getLast? = some c))

/-- `Solitaire.can_move`.  Returns `none` exactly when the Python code
raises: `self.waste[-1]` is evaluated only after the rank check succeeds
and a matching exposed card is found, and raises iff the waste is empty. -/
def can_move (s : GameState) (c : Card) : Option Bool :=
  match c.rank with
  | none => some false
  | some r =>
      if exposedIn s.tableau c then
        match s.waste.getLast? with
        | none => none
        | some w => some (decide (some (r - 1) = w.rank) || decide (some (r + 1) = w.rank))
      else some false

/-- Python sequence indexing `xs[i]` for a sequence of length `n`:
`0 <= i < n` is used directly, `-n <= i < 0` counts from the end, other
indices raise `IndexError` (`none`). -/
def pyIndex (n : Nat) (i : Int) : Option Nat :=
  if 0 ≤ i then
    if i < (n : Int) then some i.toNat else none
  else
    if -(n : Int) ≤ i then some (n - i.natAbs) else none

/-- `Solitaire.move_card`: index the tableau with Python semantics (an
out-of-range column raises, modelled as `none`); if the column is
non-empty pop its last card and append it to the waste, otherwise do
nothing. -/
def move_card (s : GameState) (col : Int) : Option GameState :=
  match pyIndex s.tableau.length col with
  | none => none
  | some i =>
      match (s.tableau.getD i []).getLast? with
      | none => some s
      | some c =>
          some { s with
                 tableau := s.tableau.set i (s.tableau.getD i []).dropLast,
                 waste := s.waste ++ [c] }

/-- `Solitaire.deal_from_stock`: if the stock is non-empty, pop its last
card and append it to the waste; otherwise do nothing. -/
def deal_from_stock (s : GameState) : GameState :=
  match s.stock.getLast? with
  | none => s
  | some c => { s with stock := s.stock.dropLast, waste := s.waste ++ [c] }

/-- `Solitaire.has_won`: no cards left in the tableau. -/
def has_won (s : GameState) : Bool :=
  s.tableau.all List.isEmpty

/-- `Solitaire.last_cards`: the last card of each non-empty column, in
column order. -/
def last_cards (s : GameState) : List Card :=
  s.tableau.filterMap List.getLast?

/-- The list comprehension of `Solitaire.has_lost`: the number of cards in
`l` for which `can_move` returns true; `none` as soon as a `can_move` call
raises. -/
def countMovable (s : GameState) : List Card → Option Nat
  | [] => some 0
  | c :: rest => do
      let b ← can_move s c
      let n ← countMovable s rest
      pure (if b then n + 1 else n)

/-- `Solitaire.has_lost`: the stock is empty and no exposed card can move.
The `and` short-circuits: with a non-empty stock no `can_move` call is
made. -/
def has_lost (s : GameState) : Option Bool :=
  if s.stock.isEmpty then
    (countMovable s (last_cards s)).map (fun n => decide (n = 0))
  else some false

/-- Total number of cards in play. -/
def totalCards (s : GameState) : Nat :=
  (s.tableau.map List.length).sum + s.stock.length + s.waste.length

/-- One engine mutation: a (successful) `move_card` or a
`deal_from_stock`. -/
inductive Step : GameState → GameState → Prop
  | move (s s' : GameState) (col : Int) (h : move_card s col = some s') : Step s s'
  | deal (s : GameState) : Step s (deal_from_stock s)

/-- States reachable from `s` by engine mutations. -/
def Reachable : GameState → GameState → Prop :=
  Relation.ReflTransGen Step

/-! ### Basic lemmas about the operations -/

lemma exposedIn_iff (tab : List (List Card)) (c : Card) :
    exposedIn tab c = true ↔ ∃ col ∈ tab, col.getLast? = some c := by
  simp [exposedIn]

/-- `can_move` succeeds (never raises) whenever the waste is non-empty. -/
lemma can_move_isSome (s : GameState) (c : Card) (hw : s.waste ≠ []) :
    (can_move s c).isSome := by
  obtain ⟨cs, cr⟩ := c
  cases cr with
  | none => rfl
  | some r =>
    simp only [can_move]
    by_cases he : exposedIn s.tableau ⟨cs, some r⟩
    · rw [if_pos he]
      cases hl : s.waste.getLast? with
      | none => exact absurd (List.getLast?_eq_none_iff.mp hl) hw
      | some w => rfl
    · rw [if_neg he]; rfl

/-- C7: `has_won` returns true iff every tableau column is empty; it does
not look at the stock or waste, and (being a pure function of the state)
has no side effects. -/
theorem has_won_iff (s : GameState) :
    (has_won s = true ↔ ∀ col ∈ s.tableau, col = []) ∧
    (∀ st w : List Card, has_won ⟨s.tableau, st, w⟩ = has_won s) := by
  refine ⟨?_, fun st w => rfl⟩
  simp [has_won, List.all_eq_true, List.isEmpty_iff]

/-- C1: with a non-empty waste pile, `can_move s c` returns true iff `c`
has a defined rank, `c` is the exposed (last) card of some non-empty
tableau column, and the absolute difference between `c`'s rank and the
waste top's rank is exactly 1 (no Ace–King wraparound); the function is
pure, so the call has no side effects. -/
theorem can_move_iff (s : GameState) (w : Card) (hw : s.waste.getLast? = some w)
    (c : Card) :
    can_move s c = some true ↔
      ∃ r, c.rank = some r ∧
        (∃ col ∈ s.tableau, col.getLast? = some c) ∧
        ∃ rw, w.rank = some rw ∧ (r - rw).natAbs = 1 := by
  obtain ⟨cs, cr⟩ := c
  cases cr with
  | none =>
    constructor
    · intro h; exact absurd h (by simp [can_move])
    · rintro ⟨r, hr, -⟩; exact absurd hr (by simp)
  | some r =>
    simp only [can_move]
    by_cases he : exposedIn s.tableau ⟨cs, some r⟩
    · rw [if_pos he, hw]
      rw [exposedIn_iff] at he
      cases hwr : w.rank with
      | none => simp [hwr]
      | some rw0 =>
        simp only [hwr, Option.some.injEq, Bool.or_eq_true, decide_eq_true_eq]
        constructor
        · rintro (h | h)
          · exact ⟨r, rfl, he, rw0, rfl, by omega⟩
          · exact ⟨r, rfl, he, rw0, rfl, by omega⟩
        · rintro ⟨r', hr', -, rw', hrw', habs⟩
          obtain rfl : r = r' := by simpa using hr'
          obtain rfl : rw0 = rw' := by simpa using hrw'
          omega
    · rw [if_neg he]
      rw [exposedIn_iff] at he
      constructor
      · intro h; simp at h
      · rintro ⟨r', -, hcol, -⟩
        exact absurd hcol he

/-- Witness for C1 at a concrete state: a 6 is exposed and the waste top
is a 7. -/
theorem can_move_iff_witness :
    can_move ⟨[[⟨0, some 6⟩]], [], [⟨1, some 7⟩]⟩ ⟨0, some 6⟩ = some true :=
  (can_move_iff ⟨[[⟨0, some 6⟩]], [], [⟨1, some 7⟩]⟩ ⟨1, some 7⟩ rfl ⟨0, some 6⟩).mpr
    ⟨6, rfl, ⟨[⟨0, some 6⟩], by simp, rfl⟩, 7, rfl, by decide⟩

/-! ### Indexing lemmas for `move_card` -/

lemma pyIndex_ofNat (len n : Nat) (h : n < len) : pyIndex len (n : Int) = some n := by
  unfold pyIndex
  rw [if_pos (by positivity), if_pos (by exact_mod_cast h)]
  simp

lemma pyIndex_eq_none_iff (len : Nat) (i : Int) :
    pyIndex len i = none ↔ ((len : Int) ≤ i ∨ i < -(len : Int)) := by
  unfold pyIndex
  by_cases h0 : 0 ≤ i
  · rw [if_pos h0]
    by_cases h1 : i < (len : Int)
    · rw [if_pos h1]; simp; omega
    · rw [if_neg h1]; simp; omega
  · rw [if_neg h0]
    by_cases h2 : -(len : Int) ≤ i
    · rw [if_pos h2]; simp; omega
    · rw [if_neg h2]; simp; omega

lemma pyIndex_neg (len : Nat) (i : Int) (h1 : -(len : Int) ≤ i) (h2 : i < 0) :
    pyIndex len i = pyIndex len ((len : Int) + i) := by
  unfold pyIndex
  rw [if_neg (by omega), if_pos h1, if_pos (by omega), if_pos (by omega)]
  congr 1
  omega

lemma pyIndex_lt (len : Nat) (i : Int) (j : Nat) (h : pyIndex len i = some j) :
    j < len := by
  unfold pyIndex at h
  by_cases h0 : 0 ≤ i
  · rw [if_pos h0] at h
    by_cases h1 : i < (len : Int)
    · rw [if_pos h1] at h
      obtain rfl : i.toNat = j := by simpa using h
      omega
    · rw [if_neg h1] at h; exact absurd h (by simp)
  · rw [if_neg h0] at h
    by_cases h2 : -(len : Int) ≤ i
    · rw [if_pos h2] at h
      obtain rfl : len - i.natAbs = j := by simpa using h
      omega
    · rw [if_neg h2] at h; exact absurd h (by simp)

/-- C3: for a valid column index, `move_card` pops the column's last card
onto the waste (leaving the other columns and the stock unchanged) when
the column is non-empty, and is a state-preserving no-op (raising no
error) when the column is empty. -/
theorem move_card_valid (s : GameState) (n : Nat) (h : n < s.tableau.length) :
    (s.tableau.getD n [] = [] → move_card s (n : Int) = some s) ∧
    (∀ c, (s.tableau.getD n []).getLast? = some c →
      move_card s (n : Int) =
        some { tableau := s.tableau.set n (s.tableau.getD n []).dropLast,
               stock := s.stock,
               waste := s.waste ++ [c] }) := by
  constructor
  · intro he
    simp only [move_card, pyIndex_ofNat s.tableau.length n h, he]
    rfl
  · intro c hc
    simp only [move_card, pyIndex_ofNat s.tableau.length n h, hc]

/-- Witness for C3 at a concrete state: moving from a singleton column and
from an empty column. -/
theorem move_card_valid_witness :
    move_card ⟨[[⟨0, some 4⟩], []], [⟨1, some 9⟩], [⟨2, some 3⟩]⟩ (0 : Nat) =
      some ⟨[[], []], [⟨1, some 9⟩], [⟨2, some 3⟩, ⟨0, some 4⟩]⟩ ∧
    move_card ⟨[[⟨0, some 4⟩], []], [⟨1, some 9⟩], [⟨2, some 3⟩]⟩ (1 : Nat) =
      some ⟨[[⟨0, some 4⟩], []], [⟨1, some 9⟩], [⟨2, some 3⟩]⟩ := by
  constructor
  · exact (move_card_valid ⟨[[⟨0, some 4⟩], []], [⟨1, some 9⟩], [⟨2, some 3⟩]⟩ 0
      (by decide)).2 ⟨0, some 4⟩ rfl
  · exact (move_card_valid ⟨[[⟨0, some 4⟩], []], [⟨1, some 9⟩], [⟨2, some 3⟩]⟩ 1
      (by decide)).1 rfl

/-- C10: `move_card` raises an index error exactly when the column index
is at least the number of columns or below minus that number; a negative
in-range index is not rejected but addresses the column counted from the
end of the tableau. -/
theorem move_card_pyindex (s : GameState) (col : Int) :
    (move_card s col = none ↔
      ((s.tableau.length : Int) ≤ col ∨ col < -(s.tableau.length : Int))) ∧
    (-(s.tableau.length : Int) ≤ col → col < 0 →
      move_card s col = move_card s ((s.tableau.length : Int) + col)) := by
  constructor
  · cases hp : pyIndex s.tableau.length col with
    | none =>
      rw [← pyIndex_eq_none_iff, hp]
      simp only [move_card, hp]
    | some i =>
      rw [← pyIndex_eq_none_iff, hp]
      simp only [move_card, hp]
      cases hl : (s.tableau.getD i []).getLast? <;> simp
  · intro h1 h2
    unfold move_card
    rw [pyIndex_neg s.tableau.length col h1 h2]

/-- Witness for C10 with a 2-column tableau: index -1 behaves as index 1,
index 2 and index -3 raise. -/
theorem move_card_pyindex_witness :
    move_card ⟨[[⟨0, some 4⟩], [⟨1, some 5⟩]], [], [⟨2, some 3⟩]⟩ (-1) =
      move_card ⟨[[⟨0, some 4⟩], [⟨1, some 5⟩]], [], [⟨2, some 3⟩]⟩ 1 ∧
    move_card ⟨[[⟨0, some 4⟩], [⟨1, some 5⟩]], [], [⟨2, some 3⟩]⟩ 2 = none := by
  constructor
  · have h := (move_card_pyindex ⟨[[⟨0, some 4⟩], [⟨1, some 5⟩]], [], [⟨2, some 3⟩]⟩
      (-1)).2 (by decide) (by decide)
    simpa using h
  · exact (move_card_pyindex ⟨[[⟨0, some 4⟩], [⟨1, some 5⟩]], [], [⟨2, some 3⟩]⟩
      2).1.mpr (by decide)

/-! ### Card conservation -/

lemma sum_map_length_set (ls : List (List Card)) (i : Nat) (col' : List Card)
    (h : i < ls.length) :
    ((ls.set i col').map List.length).sum + (ls.getD i []).length
      = (ls.map List.length).sum + col'.length := by
  induction ls generalizing i with
  | nil => simp at h
  | cons hd tl ih =>
    cases i with
    | zero => simp [List.set]; omega
    | succ j =>
      simp only [List.set, List.map_cons, List.sum_cons, List.getD_cons_succ]
      have := ih j (by simpa using h)
      omega

/-- A successful `move_card` relocates exactly one card: the total card
count is preserved. -/
lemma move_card_totalCards (s s' : GameState) (col : Int)
    (h : move_card s col = some s') : totalCards s' = totalCards s := by
  unfold move_card at h
  cases hp : pyIndex s.tableau.length col with
  | none => rw [hp] at h; exact absurd h (by simp)
  | some i =>
    simp only [hp] at h
    have hi : i < s.tableau.length := pyIndex_lt s.tableau.length col i hp
    cases hl : (s.tableau.getD i []).getLast? with
    | none =>
      simp only [hl] at h
      obtain rfl : s = s' := by simpa using h
      rfl
    | some c =>
      simp only [hl] at h
      obtain rfl : { s with
          tableau := s.tableau.set i (s.tableau.getD i []).dropLast,
          waste := s.waste ++ [c] } = s' := by simpa using h
      have hne : s.tableau.getD i [] ≠ [] := by
        intro he; rw [he] at hl; exact absurd hl (by simp)
      have hlen : (s.tableau.getD i []).length ≠ 0 := by
        simpa using hne
      have hsum := sum_map_length_set s.tableau i
        ((s.tableau.getD i []).dropLast) hi
      have hdl : (s.tableau.getD i []).dropLast.length
          = (s.tableau.getD i []).length - 1 := by simp
      unfold totalCards
      simp only [List.length_append, List.length_singleton]
      omega

/-- `deal_from_stock` relocates at most one card: the total card count is
preserved. -/
lemma deal_from_stock_totalCards (s : GameState) :
    totalCards (deal_from_stock s) = totalCards s := by
  unfold deal_from_stock
  cases hl : s.stock.getLast? with
  | none => rfl
  | some c =>
    have hne : s.stock ≠ [] := by
      intro he; rw [he] at hl; exact absurd hl (by simp)
    have hlen : s.stock.length ≠ 0 := by simpa using hne
    unfold totalCards
    simp only [List.length_dropLast, List.length_append, List.length_singleton]
    omega

lemma step_totalCards (s s' : GameState) (h : Step s s') :
    totalCards s' = totalCards s := by
  cases h with
  | move a b c => exact move_card_totalCards _ _ _ c
  | deal => exact deal_from_stock_totalCards s

lemma reachable_totalCards (s s' : GameState) (h : Reachable s s') :
    totalCards s' = totalCards s := by
  induction h with
  | refl => rfl
  | tail hr hs ih => rw [step_totalCards _ _ hs, ih]

/-! ### Setup lemmas -/

/-- When enough cards remain, one column is dealt off the front of the
deck. -/
lemma dealColumn_eq (n : Nat) (deck : List Card) (h : n ≤ deck.length) :
    dealColumn n deck = some (deck.take n, deck.drop n) := by
  induction n generalizing deck with
  | zero => simp [dealColumn]
  | succ m ih =>
    cases deck with
    | nil => simp at h
    | cons c deck0 =>
      have hm : m ≤ deck0.length := by simpa using h
      simp [dealColumn, dealCard, ih deck0 hm]

/-- When enough cards remain, dealing the tableau succeeds and yields
columns of the requested size whose concatenation is an initial segment
of the deck. -/
lemma dealTableau_some (n cic : Nat) :
    ∀ deck : List Card, n * cic ≤ deck.length →
      ∃ tab rest, dealTableau n cic deck = some (tab, rest) ∧
        deck = tab.flatten ++ rest ∧ tab.length = n ∧
        ∀ col ∈ tab, col.length = cic := by
  induction n with
  | zero =>
    intro deck h
    exact ⟨[], deck, rfl, by simp, rfl, by simp⟩
  | succ m ih =>
    intro deck h
    rw [Nat.succ_mul] at h
    have hc : cic ≤ deck.length := by omega
    have hrest : m * cic ≤ (deck.drop cic).length := by
      simp only [List.length_drop]; omega
    obtain ⟨tab, rest, he, hd, hl, hall⟩ := ih (deck.drop cic) hrest
    refine ⟨deck.take cic :: tab, rest, ?_, ?_, by simp [hl], ?_⟩
    · simp [dealTableau, dealColumn_eq cic deck hc, he]
    · conv_lhs => rw [← List.take_append_drop cic deck]
      rw [hd]
      simp
    · intro col hcol
      rcases List.mem_cons.mp hcol with hcol | hcol
      · subst hcol; simp [List.length_take]; omega
      · exact hall col hcol

/-- Inversion for `dealColumn`. -/
lemma dealColumn_inv (n : Nat) :
    ∀ deck col rest, dealColumn n deck = some (col, rest) →
      deck = col ++ rest ∧ col.length = n := by
  induction n with
  | zero =>
    intro deck col rest h
    simp [dealColumn] at h
    obtain ⟨rfl, rfl⟩ := h
    simp
  | succ m ih =>
    intro deck col rest h
    cases deck with
    | nil => simp [dealColumn, dealCard] at h
    | cons c deck0 =>
      cases hc : dealColumn m deck0 with
      | none => simp [dealColumn, dealCard, hc] at h
      | some p =>
        obtain ⟨col0, rest0⟩ := p
        simp [dealColumn, dealCard, hc] at h
        obtain ⟨rfl, rfl⟩ := h
        obtain ⟨hd, hl⟩ := ih deck0 col0 rest0 hc
        constructor
        · rw [hd]; rfl
        · simp [hl]

/-- Inversion for `dealTableau`. -/
lemma dealTableau_inv (n cic : Nat) :
    ∀ deck tab rest, dealTableau n cic deck = some (tab, rest) →
      deck = tab.flatten ++ rest ∧ tab.length = n ∧
        ∀ col ∈ tab, col.length = cic := by
  induction n with
  | zero =>
    intro deck tab rest h
    simp [dealTableau] at h
    obtain ⟨rfl, rfl⟩ := h
    simp
  | succ m ih =>
    intro deck tab rest h
    cases hc : dealColumn cic deck with
    | none => simp [dealTableau, hc] at h
    | some p =>
      obtain ⟨col0, deck1⟩ := p
      cases ht : dealTableau m cic deck1 with
      | none => simp [dealTableau, hc, ht] at h
      | some q =>
        obtain ⟨tab0, rest0⟩ := q
        simp [dealTableau, hc, ht] at h
        obtain ⟨rfl, rfl⟩ := h
        obtain ⟨hd0, hl0⟩ := dealColumn_inv cic deck col0 deck1 hc
        obtain ⟨hd1, hl1, hall⟩ := ih deck1 tab0 rest0 ht
        refine ⟨?_, by simp [hl1], ?_⟩
        · rw [hd0, hd1]; simp
        · intro col hcol
          rcases List.mem_cons.mp hcol with hcol | hcol
          · subst hcol; exact hl0
          · exact hall col hcol

/-- Inversion for `setup`: any successful setup splits the deck, in
order, into the flattened tableau, the single waste card and the stock. -/
lemma setup_inv (deck : List Card) (cols cic : Nat) (s : GameState)
    (h : setup deck cols cic = some s) :
    deck = s.tableau.flatten ++ s.waste ++ s.stock ∧
      s.tableau.length = cols ∧ (∀ col ∈ s.tableau, col.length = cic) ∧
      ∃ w, s.waste = [w] := by
  unfold setup at h
  cases ht : dealTableau cols cic deck with
  | none => rw [ht] at h; exact absurd h (by simp)
  | some p =>
    obtain ⟨tab, deck1⟩ := p
    simp only [ht] at h
    cases deck1 with
    | nil => exact absurd h (by simp [dealCard])
    | cons w deck2 =>
      simp only [dealCard, Option.bind_some] at h
      obtain rfl : ({ tableau := tab, stock := deck2, waste := [w] } : GameState) = s := by
        simpa using h
      obtain ⟨hd, hl, hall⟩ := dealTableau_inv cols cic deck tab (w :: deck2) ht
      refine ⟨?_, hl, hall, w, rfl⟩
      rw [hd]; simp

/-- Any successful setup distributes exactly the whole deck. -/
lemma setup_totalCards (deck : List Card) (cols cic : Nat) (s : GameState)
    (h : setup deck cols cic = some s) : totalCards s = deck.length := by
  obtain ⟨hd, -, -, -⟩ := setup_inv deck cols cic s h
  unfold totalCards
  rw [hd]
  simp [List.length_flatten]
  omega

/-- C2: card conservation.  Every state reachable from a setup of a
52-card deck has 52 cards in total across tableau, stock and waste: the
two mutating operations `move_card` and `deal_from_stock` only relocate
single cards. -/
theorem conservation (deck : List Card) (cols cic : Nat) (s0 s : GameState)
    (hlen : deck.length = 52) (hs : setup deck cols cic = some s0)
    (hr : Reachable s0 s) : totalCards s = 52 := by
  rw [reachable_totalCards s0 s hr, setup_totalCards deck cols cic s0 hs, hlen]

/-- A concrete ordered 52-card deck (4 suits × 13 ranks). -/
def deck52 : List Card :=
  (List.range 52).map (fun i => { suit := i / 13, rank := some ((i % 13 : Nat) + 1) })

/-- The engine state obtained by setting up `deck52` with 7 columns of 5
cards. -/
def state52 : GameState :=
  (setup deck52 7 5).getD ⟨[], [], []⟩

lemma setup_deck52 : setup deck52 7 5 = some state52 := by decide

/-- Witness for C2: the setup state of the concrete deck has 52 cards. -/
theorem conservation_witness : totalCards state52 = 52 :=
  conservation deck52 7 5 state52 state52 (by decide) setup_deck52
    Relation.ReflTransGen.refl

/-! ### Setup shape (C5) -/

lemma sum_map_length_const (tab : List (List Card)) (k c : Nat)
    (hl : tab.length = k) (hall : ∀ col ∈ tab, col.length = c) :
    (tab.map List.length).sum = k * c := by
  have h : tab.map List.length = List.replicate k c := by
    rw [List.eq_replicate_iff]
    refine ⟨by simp [hl], ?_⟩
    intro b hb
    obtain ⟨col, hcol, rfl⟩ := List.mem_map.mp hb
    exact hall col hcol
  rw [h]
  simp [List.sum_replicate, smul_eq_mul]

/-- C5: setting up a 52-card deck with no duplicates into 7 columns of 5
yields 7 columns of 5 cards each (dealt in deck order, so the last card
dealt to a column is its exposed card), a 1-card waste, a 16-card stock,
no duplicate card anywhere, and the deck fully consumed (every deck card
ends up distributed: the three containers concatenate back to the whole
deck, in deal order). -/
theorem setup_shape (deck : List Card) (hlen : deck.length = 52)
    (hnd : deck.Nodup) :
    ∃ s, setup deck 7 5 = some s ∧
      s.tableau.length = 7 ∧ (∀ col ∈ s.tableau, col.length = 5) ∧
      s.waste.length = 1 ∧ s.stock.length = 16 ∧
      (s.tableau.flatten ++ s.waste ++ s.stock).Nodup ∧
      s.tableau.flatten ++ s.waste ++ s.stock = deck := by
  obtain ⟨tab, rest, ht, hd, hl, hall⟩ :=
    dealTableau_some 7 5 deck (by omega)
  have hsum : (tab.map List.length).sum = 35 :=
    sum_map_length_const tab 7 5 hl hall
  have hrl : rest.length = 17 := by
    have hld := congrArg List.length hd
    simp only [List.length_append, List.length_flatten] at hld
    omega
  cases rest with
  | nil => simp at hrl
  | cons w stock2 =>
    refine ⟨⟨tab, stock2, [w]⟩, ?_, hl, hall, rfl, ?_, ?_, ?_⟩
    · simp [setup, ht, dealCard]
    · simpa using hrl
    · have he : tab.flatten ++ [w] ++ stock2 = deck := by
        rw [hd]; simp
      rw [he]; exact hnd
    · rw [hd]; simp

/-- Witness for C5 at the concrete ordered deck. -/
theorem setup_shape_witness :
    ∃ s, setup deck52 7 5 = some s ∧
      s.tableau.length = 7 ∧ (∀ col ∈ s.tableau, col.length = 5) ∧
      s.waste.length = 1 ∧ s.stock.length = 16 ∧
      (s.tableau.flatten ++ s.waste ++ s.stock).Nodup ∧
      s.tableau.flatten ++ s.waste ++ s.stock = deck52 :=
  setup_shape deck52 (by decide) (by decide)

/-! ### Loss detection (C4, C9) -/

/-- With a non-empty waste the movable-card count never raises, and it is
zero exactly when no card of the list can move. -/
lemma countMovable_spec (s : GameState) (hw : s.waste ≠ []) (l : List Card) :
    ∃ n, countMovable s l = some n ∧
      (n = 0 ↔ ∀ c ∈ l, can_move s c ≠ some true) := by
  induction l with
  | nil => exact ⟨0, rfl, by simp⟩
  | cons c rest ih =>
    obtain ⟨n, hn, hiff⟩ := ih
    obtain ⟨b, hb⟩ := Option.isSome_iff_exists.mp (can_move_isSome s c hw)
    refine ⟨if b then n + 1 else n, ?_, ?_⟩
    · simp [countMovable, hb, hn]
    · cases b with
      | true =>
        show n + 1 = 0 ↔ _
        constructor
        · intro h; exact absurd h (by simp)
        · intro h; exact absurd hb (h c (List.mem_cons_self c rest))
      | false =>
        show n = 0 ↔ _
        rw [hiff]
        constructor
        · intro h c2 hc2
          rcases List.mem_cons.mp hc2 with rfl | hc2
          · rw [hb]; simp
          · exact h c2 hc2
        · intro h c2 hc2
          exact h c2 (List.mem_cons_of_mem c hc2)

/-- C4: with a valid (non-empty) waste pile, `has_lost` is true iff the
stock is empty and no currently exposed card can move; with a non-empty
stock it is false even if no exposed card is movable. -/
theorem has_lost_iff (s : GameState) (hw : s.waste ≠ []) :
    (has_lost s = some true ↔
      s.stock = [] ∧ ∀ c ∈ last_cards s, can_move s c ≠ some true) ∧
    (s.stock ≠ [] → has_lost s = some false) := by
  by_cases hs : s.stock = []
  · obtain ⟨n, hn, hiff⟩ := countMovable_spec s hw (last_cards s)
    have hml : has_lost s = some (decide (n = 0)) := by
      simp [has_lost, hs, hn]
    refine ⟨?_, fun hne => absurd hs hne⟩
    rw [hml]
    constructor
    · intro h
      refine ⟨hs, hiff.mp ?_⟩
      simpa using h
    · rintro ⟨-, h⟩
      simp [hiff.mpr h]
  · have hml : has_lost s = some false := by
      have : s.stock.isEmpty = false := by
        simpa [List.isEmpty_iff] using hs
      simp [has_lost, this]
    refine ⟨?_, fun _ => hml⟩
    rw [hml]
    constructor
    · intro h; exact absurd h (by simp)
    · rintro ⟨h, -⟩; exact absurd h hs

/-- Witness for C4: stock empty, a lone exposed Ace against a waste top
of rank 5 (difference 4), so the game is lost. -/
theorem has_lost_iff_witness :
    has_lost ⟨[[⟨0, some 1⟩]], [], [⟨0, some 5⟩]⟩ = some true :=
  (has_lost_iff ⟨[[⟨0, some 1⟩]], [], [⟨0, some 5⟩]⟩ (by simp)).1.mpr
    ⟨rfl, by decide⟩

/-- C9: the terminal predicates are not mutually exclusive — with every
column empty and an empty stock, `has_won` and `has_lost` are both true
(`last_cards` is empty, so no exposed card satisfies `can_move`),
although the spec's state machine treats WON and LOST as distinct
terminal states. -/
theorem won_and_lost (s : GameState) (ht : ∀ col ∈ s.tableau, col = [])
    (hs : s.stock = []) : has_won s = true ∧ has_lost s = some true := by
  constructor
  · simp only [has_won, List.all_eq_true, List.isEmpty_iff]
    exact ht
  · have hlc : last_cards s = [] := by
      simp only [last_cards, List.filterMap_eq_nil_iff]
      intro col hcol
      rw [ht col hcol]
      rfl
    simp [has_lost, hs, hlc, countMovable]

/-- Witness for C9: two empty columns, empty stock (and even an empty
waste). -/
theorem won_and_lost_witness :
    has_won ⟨[[], []], [], []⟩ = true ∧
    has_lost ⟨[[], []], [], []⟩ = some true :=
  won_and_lost ⟨[[], []], [], []⟩ (by simp) rfl

/-! ### Deal exhaustion (C6) -/

/-- `deal_from_stock` on an empty stock is the identity. -/
lemma deal_from_stock_empty (s : GameState) (h : s.stock = []) :
    deal_from_stock s = s := by
  unfold deal_from_stock
  rw [h]
  rfl

/-- Shape of `k` successive deals while the stock lasts. -/
lemma deal_iterate (k : Nat) :
    ∀ s : GameState, k ≤ s.stock.length →
      (deal_from_stock^[k] s).tableau = s.tableau ∧
      (deal_from_stock^[k] s).stock = s.stock.take (s.stock.length - k) ∧
      (deal_from_stock^[k] s).waste
        = s.waste ++ (s.stock.drop (s.stock.length - k)).reverse := by
  induction k with
  | zero =>
    intro s h
    simp
  | succ j ih =>
    intro s h
    have hne : s.stock ≠ [] := by
      intro he; rw [he] at h; simp at h
    obtain ⟨c, hc⟩ : ∃ c, s.stock.getLast? = some c := by
      cases hl : s.stock.getLast? with
      | none => exact absurd (List.getLast?_eq_none_iff.mp hl) hne
      | some c => exact ⟨c, rfl⟩
    have hsplit : s.stock.dropLast ++ [c] = s.stock := by
      have hg : s.stock.getLast hne = c := by
        have h2 := List.getLast?_eq_getLast s.stock hne
        rw [h2] at hc
        exact Option.some.inj hc
      rw [← hg]
      exact List.dropLast_append_getLast hne
    have hd : deal_from_stock s
        = ⟨s.tableau, s.stock.dropLast, s.waste ++ [c]⟩ := by
      unfold deal_from_stock
      rw [hc]
    have hlen : s.stock.dropLast.length = s.stock.length - 1 := by simp
    have hj : j ≤ s.stock.dropLast.length := by omega
    obtain ⟨h1, h2, h3⟩ := ih ⟨s.tableau, s.stock.dropLast, s.waste ++ [c]⟩ hj
    dsimp only at h1 h2 h3
    rw [hlen] at h2 h3
    have harith : s.stock.length - 1 - j = s.stock.length - (j + 1) := by omega
    rw [harith] at h2 h3
    rw [Function.iterate_succ_apply, hd]
    refine ⟨h1, ?_, ?_⟩
    · rw [h2, List.dropLast_eq_take, List.take_take]
      congr 1
      omega
    · rw [h3]
      have hdrop : ∀ m, m ≤ s.stock.length - 1 →
          s.stock.drop m = s.stock.dropLast.drop m ++ [c] := by
        intro m hm
        conv_lhs => rw [← hsplit]
        rw [List.drop_append_of_le_length (by rw [hlen]; omega)]
      rw [hdrop (s.stock.length - (j + 1)) (by omega)]
      simp

/-- C6: from a state with `n` stock cards, each of the first `n` calls to
`deal_from_stock` moves one card from the dealing end of the stock to the
top of the waste, leaving the tableau unchanged; after `n` calls the
stock is empty, and every further call leaves the whole state unchanged
(raising no error). -/
theorem deal_exhaustion (s : GameState) (n : Nat) (h : s.stock.length = n) :
    (∀ k, k ≤ n →
      (deal_from_stock^[k] s).tableau = s.tableau ∧
      (deal_from_stock^[k] s).stock = s.stock.take (n - k) ∧
      (deal_from_stock^[k] s).waste
        = s.waste ++ (s.stock.drop (n - k)).reverse) ∧
    (deal_from_stock^[n] s).stock = [] ∧
    (∀ m, deal_from_stock^[n + m] s = deal_from_stock^[n] s) := by
  subst h
  have hmain := fun k hk => deal_iterate k s hk
  have hempty : (deal_from_stock^[s.stock.length] s).stock = [] := by
    obtain ⟨-, h2, -⟩ := deal_iterate s.stock.length s le_rfl
    rw [h2]
    simp
  refine ⟨hmain, hempty, ?_⟩
  intro m
  induction m with
  | zero => rfl
  | succ i ih =>
    have : s.stock.length + (i + 1) = (s.stock.length + i) + 1 := rfl
    rw [this, Function.iterate_succ_apply', ih,
      deal_from_stock_empty (deal_from_stock^[s.stock.length] s) hempty]

/-- Witness for C6 on a concrete 2-card stock: after 2 deals the stock is
empty and the two cards sit on the waste in reverse stock order; a third
deal changes nothing. -/
theorem deal_exhaustion_witness :
    (deal_from_stock^[2] ⟨[[⟨0, some 4⟩]], [⟨1, some 9⟩, ⟨2, some 3⟩], [⟨3, some 6⟩]⟩).stock
      = ([⟨1, some 9⟩, ⟨2, some 3⟩] : List Card).take 0 ∧
    (deal_from_stock^[2] ⟨[[⟨0, some 4⟩]], [⟨1, some 9⟩, ⟨2, some 3⟩], [⟨3, some 6⟩]⟩).waste
      = [⟨3, some 6⟩] ++ (([⟨1, some 9⟩, ⟨2, some 3⟩] : List Card).drop 0).reverse ∧
    deal_from_stock^[2 + 1] ⟨[[⟨0, some 4⟩]], [⟨1, some 9⟩, ⟨2, some 3⟩], [⟨3, some 6⟩]⟩
      = deal_from_stock^[2] ⟨[[⟨0, some 4⟩]], [⟨1, some 9⟩, ⟨2, some 3⟩], [⟨3, some 6⟩]⟩ := by
  have h := deal_exhaustion ⟨[[⟨0, some 4⟩]], [⟨1, some 9⟩, ⟨2, some 3⟩], [⟨3, some 6⟩]⟩ 2 rfl
  exact ⟨(h.1 2 (by decide)).2.1, (h.1 2 (by decide)).2.2, h.2.2 1⟩

/-! ### Waste invariant and totality (C8) -/

/-- A successful `move_card` never removes cards from the waste. -/
lemma move_card_waste (s s' : GameState) (col : Int)
    (h : move_card s col = some s') :
    s'.waste = s.waste ∨ ∃ c, s'.waste = s.waste ++ [c] := by
  unfold move_card at h
  cases hp : pyIndex s.tableau.length col with
  | none => rw [hp] at h; exact absurd h (by simp)
  | some i =>
    simp only [hp] at h
    cases hl : (s.tableau.getD i []).getLast? with
    | none =>
      simp only [hl] at h
      obtain rfl : s = s' := by simpa using h
      exact Or.inl rfl
    | some c =>
      simp only [hl] at h
      obtain rfl : { s with
          tableau := s.tableau.set i (s.tableau.getD i []).dropLast,
          waste := s.waste ++ [c] } = s' := by simpa using h
      exact Or.inr ⟨c, rfl⟩

/-- `deal_from_stock` never removes cards from the waste. -/
lemma deal_from_stock_waste (s : GameState) :
    (deal_from_stock s).waste = s.waste ∨
      ∃ c, (deal_from_stock s).waste = s.waste ++ [c] := by
  unfold deal_from_stock
  cases hl : s.stock.getLast? with
  | none => exact Or.inl rfl
  | some c => exact Or.inr ⟨c, rfl⟩

lemma step_waste_ne (s s' : GameState) (h : Step s s') (hw : s.waste ≠ []) :
    s'.waste ≠ [] := by
  have hcases : s'.waste = s.waste ∨ ∃ c, s'.waste = s.waste ++ [c] := by
    cases h with
    | move a b c => exact move_card_waste _ _ _ c
    | deal => exact deal_from_stock_waste s
  rcases hcases with he | ⟨c, he⟩
  · rw [he]; exact hw
  · rw [he]; simp

/-- With a non-empty waste, `has_lost` never raises. -/
lemma has_lost_isSome (s : GameState) (hw : s.waste ≠ []) :
    (has_lost s).isSome := by
  unfold has_lost
  by_cases hs : s.stock.isEmpty
  · rw [if_pos hs]
    obtain ⟨n, hn, -⟩ := countMovable_spec s hw (last_cards s)
    rw [hn]
    rfl
  · rw [if_neg hs]
    rfl

/-- C8: every state reachable after setup has a non-empty waste pile
(setup puts one card there; the two mutating operations only append to
the waste), and under this invariant the queries are total: `can_move`
and `has_lost` never raise (`has_won` and `last_cards` are total by
construction), and being pure functions none of them mutates the
state. -/
theorem waste_invariant (deck : List Card) (cols cic : Nat) (s0 s : GameState)
    (hs : setup deck cols cic = some s0) (hr : Reachable s0 s) :
    s.waste ≠ [] ∧ (∀ c, (can_move s c).isSome) ∧ (has_lost s).isSome := by
  obtain ⟨-, -, -, w, hw0⟩ := setup_inv deck cols cic s0 hs
  have hne : s.waste ≠ [] := by
    induction hr with
    | refl => rw [hw0]; simp
    | tail hr hstep ih => exact step_waste_ne _ _ hstep ih
  exact ⟨hne, fun c => can_move_isSome s c hne, has_lost_isSome s hne⟩

/-- Witness for C8 at the concrete setup state. -/
theorem waste_invariant_witness :
    state52.waste ≠ [] ∧ (can_move state52 ⟨0, some 1⟩).isSome ∧
      (has_lost state52).isSome := by
  have h := waste_invariant deck52 7 5 state52 state52 setup_deck52
    Relation.ReflTransGen.refl
  exact ⟨h.1, h.2.1 ⟨0, some 1⟩, h.2.2⟩
